import Mathlib

/-!
Shallow embedding of the `flatpage` crate (markdown flat pages with optional
YAML frontmatter) and proofs about its frontmatter splitting, URL/file
mapping, page resolution and directory store.

Strings are modelled as `List Char`.  The serde_yaml deserializer and the
filesystem are external capabilities and enter the definitions as parameters:
the deserializer as a function `List Char → Except ε Frontmatter`, a file read
as its result `Option (List Char)` (`none` models any read failure, including
non-UTF8 content), and a directory listing as a list of
`Except (List Char) DirEntry` values.
-/

namespace Flatpage

/-- Model of Rust `str::trim_start`: drop leading whitespace.  (Rust trims
Unicode whitespace; `Char.isWhitespace` covers the ASCII subset, which is all
the claims exercise.) -/
def trimStartSeq (s : List Char) : List Char := s.dropWhile Char.isWhitespace

/-- Model of Rust `str::trim_end`: drop trailing whitespace. -/
def trimEndSeq (s : List Char) : List Char := (s.reverse.dropWhile Char.isWhitespace).reverse

/-- Model of Rust `str::trim`: drop leading and trailing whitespace. -/
def trimSeq (s : List Char) : List Char := trimEndSeq (trimStartSeq s)

/-- Boolean test that the needle `n` occurs at the start of `s`. -/
def startsWithSeq : List Char → List Char → Bool
  | [], _ => true
  | _ :: _, [] => false
  | n :: ns, c :: cs => n == c && startsWithSeq ns cs

/-- Model of Rust `str::split_once` for a nonempty needle: split `s` at the
first occurrence of `n`, returning the text before the needle and the text
after it, or `none` when `n` does not occur in `s`. -/
def splitOnce (n : List Char) : List Char → Option (List Char × List Char)
  | [] => none
  | c :: cs =>
    if startsWithSeq n (c :: cs) then some ([], (c :: cs).drop n.length)
    else
      match splitOnce n cs with
      | some (pre, rest) => some (c :: pre, rest)
      | none => none

/-- The three-dash delimiter of `lib.rs`'s `splitn(3, "---")`. -/
def dddChars : List Char := ("---").toList

/-- The anchored opening delimiter of `frontmatter.rs`. -/
def dddNl : List Char := ("---\n").toList

/-- The closing pattern of `frontmatter.rs`. -/
def nlDdd : List Char := ("\n---").toList

/-- The frontmatter record deserialized from the matter text
(`title`/`description`, both optional). -/
structure Frontmatter where
  title : Option (List Char)
  description : Option (List Char)
deriving DecidableEq

/-- Embedding of `frontmatter.rs`'s `split_frontmatter`: trim the start,
require the content to begin with the opening delimiter line, then split the
remainder at the first occurrence of the closing pattern; the body is trimmed. -/
def split_frontmatter (content : List Char) : Option (List Char × List Char) :=
  match splitOnce dddNl (trimStartSeq content) with
  | none => none
  | some (pre, rest) =>
    if pre = [] then
      match splitOnce nlDdd rest with
      | none => none
      | some (matter, body) => some (matter, trimSeq body)
    else none

/-- The split performed by `frontmatter.rs`'s `Frontmatter::parse`:
`split_frontmatter(content).unwrap_or_else(|| (EMPTY_YAML, content.trim()))`,
with the absent matter (`EMPTY_YAML`) rendered as `none`. -/
def fmSplit (content : List Char) : Option (List Char) × List Char :=
  match split_frontmatter content with
  | some (matter, body) => (some matter, body)
  | none => (none, trimSeq content)

/-- The splitting half of `lib.rs`'s `Frontmatter::parse`: `content.trim()`
followed by `splitn(3, "---")`; the first part must be empty, the second is the
matter, the third (trimmed) is the body; with fewer than three parts there is
no frontmatter and the body is the trimmed content. -/
def libSplit (content : List Char) : Option (List Char) × List Char :=
  match splitOnce dddChars (trimSeq content) with
  | none => (none, trimSeq content)
  | some (pre, r1) =>
    if pre = [] then
      match splitOnce dddChars r1 with
      | none => (none, trimSeq content)
      | some (matter, body) => (some matter, trimSeq body)
    else (none, trimSeq content)

/-- Embedding of `lib.rs`'s `Frontmatter::parse`, with the serde_yaml
deserializer as an external capability parameter `deser`. -/
def Frontmatter.parse {ε : Type} (deser : List Char → Except ε Frontmatter)
    (content : List Char) : Except ε (Option Frontmatter × List Char) :=
  match libSplit content with
  | (none, body) => .ok (none, body)
  | (some matter, body) =>
    match deser matter with
    | .ok fm => .ok (some fm, body)
    | .error e => .error e

/-- Model of Rust `str::lines().next().unwrap_or_default()`: the text before
the first newline, with a trailing carriage return removed. -/
def firstLineSeq (s : List Char) : List Char :=
  let l := s.takeWhile (fun c => c != '\n')
  if l.getLast? = some '\r' then l.dropLast else l

/-- Embedding of `lib.rs`'s `title_from_markdown`: first line of the body,
leading markdown header markers `#` stripped, surrounding whitespace trimmed. -/
def title_from_markdown (body : List Char) : List Char :=
  trimSeq ((firstLineSeq body).dropWhile (fun c => c == '#'))

/-- The resolved page of `lib.rs`: title, optional description, raw body. -/
structure FlatPage where
  title : List Char
  description : Option (List Char)
  body : List Char
deriving DecidableEq

/-- Embedding of `lib.rs`'s `FlatPage::from_content`: parse the frontmatter;
with a matter present the title falls back to `title_from_markdown` of the
body, without one both title and body come from the original content. -/
def from_content {ε : Type} (deser : List Char → Except ε Frontmatter)
    (content : List Char) : Except ε FlatPage :=
  (Frontmatter.parse deser content).map (fun x =>
    match x with
    | (some matter, body) =>
      { title := matter.title.getD (title_from_markdown body)
        description := matter.description
        body := body }
    | (none, _) =>
      { title := title_from_markdown content
        description := none
        body := content })

/-- The crate's error type (`lib.rs`); the serde_yaml error payload is the type
parameter `ε`, io error payloads are modelled as `List Char`. -/
inductive Error (ε : Type) where
  | Frontmatter (e : ε) (path : List Char)
  | ReadDir (e : List Char) (path : List Char)
  | DirEntry (e : List Char)
deriving DecidableEq

/-- Embedding of `lib.rs`'s `FlatPage::by_path`.  The filesystem read is
modelled by its result `readResult`: `none` whenever `fs::read_to_string`
fails (missing file, permission error, non-UTF8 content). -/
def by_path {ε : Type} (deser : List Char → Except ε Frontmatter)
    (readResult : Option (List Char)) (path : List Char) :
    Except (Error ε) (Option FlatPage) :=
  match readResult with
  | none => .ok none
  | some content =>
    match from_content deser content with
    | .ok page => .ok (some page)
    | .error e => .error (.Frontmatter e path)

/-- The `ALLOWED_IN_URL` constant of `lib.rs`. -/
def ALLOWED_IN_URL : List Char := ("/_-").toList

/-- One character of a URL passes the whitelist: ASCII alphanumeric or one of
`ALLOWED_IN_URL`. -/
def allowedUrlChar (c : Char) : Bool := c.isAlphanum || ALLOWED_IN_URL.contains c

/-- The `.md` suffix appended to filenames. -/
def dotMd : List Char := (".md").toList

/-- Embedding of `lib.rs`'s `url_to_filename`: reject an empty URL or one with
a character outside the whitelist, otherwise replace `/` by `^` and append
`.md`. -/
def url_to_filename (url : List Char) : Option (List Char) :=
  if url = [] then none
  else if url.all allowedUrlChar then
    some (url.map (fun c => if c = '/' then '^' else c) ++ dotMd)
  else none

/-- Model of `PathBuf::push`: join with the path separator (the root is taken
without a trailing separator). -/
def pathJoin (root name : List Char) : List Char := root ++ ('/' :: name)

/-- Embedding of `lib.rs`'s `FlatPage::by_url`; `fs` models the filesystem as
a map from a path to the optional content a read of it yields. -/
def by_url {ε : Type} (deser : List Char → Except ε Frontmatter)
    (fs : List Char → Option (List Char)) (root url : List Char) :
    Except (Error ε) (Option FlatPage) :=
  match url_to_filename url with
  | none => .ok none
  | some name => by_path deser (fs (pathJoin root name)) (pathJoin root name)

/-- Page metadata cached by the store (`store.rs`). -/
structure FlatPageMeta where
  title : List Char
  description : Option (List Char)
deriving DecidableEq

/-- The `From<FlatPage> for FlatPageMeta` projection. -/
def FlatPage.toMeta (p : FlatPage) : FlatPageMeta := ⟨p.title, p.description⟩

/-- The store (`store.rs`): a root path and the stem-to-metadata index.  The
`HashMap` is modelled as an association list observed through `lookupStem`. -/
structure FlatPageStore where
  root : List Char
  pages : List (List Char × FlatPageMeta)
deriving DecidableEq

/-- `HashMap::get` on the association list: first matching key wins. -/
def lookupStem (stem : List Char) : List (List Char × FlatPageMeta) → Option FlatPageMeta
  | [] => none
  | (k, v) :: rest => if k = stem then some v else lookupStem stem rest

/-- `HashMap::insert` on the association list: the new binding shadows any
older binding of the same key with respect to `lookupStem`. -/
def insertStem (stem : List Char) (v : FlatPageMeta)
    (m : List (List Char × FlatPageMeta)) : List (List Char × FlatPageMeta) :=
  (stem, v) :: m

/-- Embedding of `store.rs`'s `FlatPageStore::url_to_stem`:
`url.replace('/', "^")`, with no whitelist check. -/
def url_to_stem (url : List Char) : List Char :=
  url.map (fun c => if c = '/' then '^' else c)

/-- Embedding of `FlatPageStore::meta_by_stem`: index lookup, no io. -/
def meta_by_stem (st : FlatPageStore) (stem : List Char) : Option FlatPageMeta :=
  lookupStem stem st.pages

/-- Embedding of `FlatPageStore::meta_by_url`. -/
def meta_by_url (st : FlatPageStore) (url : List Char) : Option FlatPageMeta :=
  meta_by_stem st (url_to_stem url)

/-- Embedding of `FlatPageStore::page_by_stem`: when the stem is indexed,
re-read `root`/`stem`.md through `by_path`; otherwise `Ok(None)`. -/
def page_by_stem {ε : Type} (deser : List Char → Except ε Frontmatter)
    (fs : List Char → Option (List Char)) (st : FlatPageStore) (stem : List Char) :
    Except (Error ε) (Option FlatPage) :=
  if (lookupStem stem st.pages).isSome = true then
    by_path deser (fs (pathJoin st.root (stem ++ dotMd))) (pathJoin st.root (stem ++ dotMd))
  else .ok none

/-- Embedding of `FlatPageStore::page_by_url`. -/
def page_by_url {ε : Type} (deser : List Char → Except ε Frontmatter)
    (fs : List Char → Option (List Char)) (st : FlatPageStore) (url : List Char) :
    Except (Error ε) (Option FlatPage) :=
  page_by_stem deser fs st (url_to_stem url)

/-- One directory entry as `read_dir` inspects it: whether the path is a
regular file, its extension, its stem (`none` models a stem that is not valid
UTF-8), the result of reading it, and its path (for error reporting). -/
structure DirEntry where
  isFile : Bool
  ext : Option (List Char)
  stem : Option (List Char)
  content : Option (List Char)
  path : List Char
deriving DecidableEq

/-- The `md` extension compared by `read_dir`. -/
def mdExtChars : List Char := ("md").toList

/-- A directory listing: each entry either failed to be inspected (the
`entry?` result was an io error, payload `List Char`) or is a `DirEntry`. -/
abbrev Listing := List (Except (List Char) DirEntry)

/-- The loop body of `FlatPageStore::read_dir`, processing the listing in
order and accumulating the index. -/
def read_dir_go {ε : Type} (deser : List Char → Except ε Frontmatter) :
    Listing → List (List Char × FlatPageMeta) →
    Except (Error ε) (List (List Char × FlatPageMeta))
  | [], pages => .ok pages
  | (Except.error e) :: _, _ => .error (.DirEntry e)
  | (Except.ok ent) :: rest, pages =>
    if ent.isFile = true ∧ ent.ext = some mdExtChars then
      match ent.stem with
      | none => read_dir_go deser rest pages
      | some stem =>
        match by_path deser ent.content ent.path with
        | .error err => .error err
        | .ok none => read_dir_go deser rest pages
        | .ok (some page) => read_dir_go deser rest (insertStem stem page.toMeta pages)
    else read_dir_go deser rest pages

/-- Embedding of `FlatPageStore::read_dir`: the listing of `root` is an
external capability result; a listing failure becomes `Error.ReadDir`. -/
def read_dir {ε : Type} (deser : List Char → Except ε Frontmatter)
    (root : List Char) (listing : Except (List Char) Listing) :
    Except (Error ε) FlatPageStore :=
  match listing with
  | .error e => .error (.ReadDir e root)
  | .ok entries =>
    match read_dir_go deser entries [] with
    | .ok pages => .ok ⟨root, pages⟩
    | .error e => .error e

/-- The deserialized title is absent: either no frontmatter block was found,
or the block deserialized with an absent `title` field. -/
def titleAbsent {ε : Type} (deser : List Char → Except ε Frontmatter)
    (content : List Char) : Prop :=
  (∃ b, Frontmatter.parse deser content = .ok (none, b)) ∨
    (∃ fm b, Frontmatter.parse deser content = .ok (some fm, b) ∧ fm.title = none)

/-- An entry that `read_dir` indexes under `stem`: a regular file with
extension `md`, a UTF-8 stem, whose page resolves to `Some` page. -/
def indexable {ε : Type} (deser : List Char → Except ε Frontmatter) (stem : List Char)
    (ent : DirEntry) : Prop :=
  ent.isFile = true ∧ ent.ext = some mdExtChars ∧ ent.stem = some stem ∧
    ∃ page, by_path deser ent.content ent.path = .ok (some page)

/-- An entry on which `read_dir` aborts with a frontmatter error: a regular
`md` file with a UTF-8 stem whose `by_path` resolution fails. -/
def entryFails {ε : Type} (deser : List Char → Except ε Frontmatter) (ent : DirEntry) : Prop :=
  ent.isFile = true ∧ ent.ext = some mdExtChars ∧ (∃ s, ent.stem = some s) ∧
    ∃ err, by_path deser ent.content ent.path = .error err

/-- An entry the `read_dir` loop passes without aborting. -/
def entryContinues {ε : Type} (deser : List Char → Except ε Frontmatter)
    (e : Except (List Char) DirEntry) : Prop :=
  ∃ ent, e = Except.ok ent ∧ ¬ entryFails deser ent

/-! Helper lemmas about the string primitives. -/

theorem startsWithSeq_iff : ∀ (n s : List Char), startsWithSeq n s = true ↔ ∃ t, s = n ++ t
  | [], s => by simp [startsWithSeq]
  | _ :: _, [] => by simp [startsWithSeq]
  | x :: ns, c :: cs => by
    rw [startsWithSeq, Bool.and_eq_true, beq_iff_eq, startsWithSeq_iff ns cs]
    constructor
    · rintro ⟨rfl, t, rfl⟩
      exact ⟨t, rfl⟩
    · rintro ⟨t, ht⟩
      injection ht with h1 h2
      exact ⟨h1.symm, t, h2⟩

theorem splitOnce_eq_some : ∀ (n s p r : List Char), splitOnce n s = some (p, r) → s = p ++ n ++ r
  | n, [], p, r => by simp [splitOnce]
  | n, c :: cs, p, r => by
    rw [splitOnce]
    by_cases hsw : startsWithSeq n (c :: cs) = true
    · rw [if_pos hsw]
      obtain ⟨t, ht⟩ := (startsWithSeq_iff n (c :: cs)).mp hsw
      simp only [Option.some.injEq, Prod.mk.injEq]
      rintro ⟨rfl, rfl⟩
      rw [ht, List.drop_left]
      simp
    · rw [if_neg hsw]
      cases hrec : splitOnce n cs with
      | none => simp
      | some pr =>
        obtain ⟨p', r'⟩ := pr
        simp only [Option.some.injEq, Prod.mk.injEq]
        rintro ⟨rfl, rfl⟩
        have := splitOnce_eq_some n cs p' r' hrec
        simp [this]

theorem splitOnce_of_startsWith (n s : List Char) (hn : n ≠ [])
    (h : startsWithSeq n s = true) : splitOnce n s = some ([], s.drop n.length) := by
  cases s with
  | nil =>
    obtain ⟨t, ht⟩ := (startsWithSeq_iff n []).mp h
    cases n with
    | nil => exact absurd rfl hn
    | cons x ns => simp at ht
  | cons c cs => rw [splitOnce, if_pos h]

theorem splitOnce_pre_ne_nil {n s p r : List Char} (h : splitOnce n s = some (p, r))
    (hsw : startsWithSeq n s = false) : p ≠ [] := by
  cases s with
  | nil => simp [splitOnce] at h
  | cons c cs =>
    rw [splitOnce, if_neg (by simp [hsw])] at h
    cases hrec : splitOnce n cs with
    | none => rw [hrec] at h; simp at h
    | some pr =>
      obtain ⟨p', r'⟩ := pr
      rw [hrec] at h
      simp only [Option.some.injEq, Prod.mk.injEq] at h
      obtain ⟨hp, _⟩ := h
      rw [← hp]
      simp

theorem splitOnce_isSome_append (n : List Char) (hn : n ≠ []) :
    ∀ (a b : List Char), (splitOnce n (a ++ n ++ b)).isSome = true
  | [], b => by
    rw [splitOnce_of_startsWith n ([] ++ n ++ b) hn
      ((startsWithSeq_iff n ([] ++ n ++ b)).mpr ⟨b, by simp⟩)]
    rfl
  | x :: a', b => by
    have ih := splitOnce_isSome_append n hn a' b
    show (splitOnce n (x :: (a' ++ n ++ b))).isSome = true
    rw [splitOnce]
    by_cases hsw : startsWithSeq n (x :: (a' ++ n ++ b)) = true
    · rw [if_pos hsw]
      rfl
    · rw [if_neg hsw]
      cases hrec : splitOnce n (a' ++ n ++ b) with
      | none => rw [hrec] at ih; simp at ih
      | some pr =>
        obtain ⟨p', r'⟩ := pr
        rfl

theorem splitOnce_none_no_occ {n s : List Char} (hn : n ≠ []) (h : splitOnce n s = none) :
    ∀ (a b : List Char), s ≠ a ++ n ++ b := by
  intro a b heq
  have hs := splitOnce_isSome_append n hn a b
  rw [← heq, h] at hs
  simp at hs

theorem trimEndSeq_append (s : List Char) : ∃ t, s = trimEndSeq s ++ t := by
  refine ⟨(s.reverse.takeWhile Char.isWhitespace).reverse, ?_⟩
  conv_rhs =>
    rw [trimEndSeq, ← List.reverse_append, List.takeWhile_append_dropWhile,
      List.reverse_reverse]

theorem startsWithSeq_of_append_left {n m s : List Char}
    (h : startsWithSeq (n ++ m) s = true) : startsWithSeq n s = true := by
  obtain ⟨t, rfl⟩ := (startsWithSeq_iff _ _).mp h
  exact (startsWithSeq_iff _ _).mpr ⟨m ++ t, by simp⟩

theorem startsWithSeq_trimSeq {n s : List Char}
    (h : startsWithSeq n (trimSeq s) = true) : startsWithSeq n (trimStartSeq s) = true := by
  obtain ⟨t, ht⟩ := trimEndSeq_append (trimStartSeq s)
  obtain ⟨u, hu⟩ := (startsWithSeq_iff _ _).mp h
  refine (startsWithSeq_iff _ _).mpr ⟨u ++ t, ?_⟩
  rw [ht]
  rw [trimSeq] at hu
  rw [hu, List.append_assoc]

theorem split_frontmatter_eq_none_of_not_anchored {content : List Char}
    (h : startsWithSeq dddNl (trimStartSeq content) = false) :
    split_frontmatter content = none := by
  unfold split_frontmatter
  cases hsp : splitOnce dddNl (trimStartSeq content) with
  | none => rfl
  | some pr =>
    obtain ⟨pre, rest⟩ := pr
    have hne : pre ≠ [] := splitOnce_pre_ne_nil hsp h
    simp [hne]

/-! Claim theorems. -/

/-- C1: for content whose left-trimmed form does not begin with the exact
four-character prefix `---` followed by a newline, `split_frontmatter` finds
no metadata block and the parse fallback makes the body exactly the trimmed
content — a delimiter substring occurring later is never treated as
frontmatter. -/
theorem split_frontmatter_requires_anchored_delimiter {content : List Char}
    (h : startsWithSeq dddNl (trimStartSeq content) = false) :
    split_frontmatter content = none ∧ fmSplit content = (none, trimSeq content) := by
  have h1 := split_frontmatter_eq_none_of_not_anchored h
  refine ⟨h1, ?_⟩
  rw [fmSplit, h1]

/-- Witness for C1 at a content whose delimiter block starts only at line two. -/
theorem split_frontmatter_requires_anchored_delimiter_witness :
    split_frontmatter (("foo\n---\nbar\n---\nbaz").toList) = none ∧
      fmSplit (("foo\n---\nbar\n---\nbaz").toList) =
        (none, trimSeq (("foo\n---\nbar\n---\nbaz").toList)) :=
  split_frontmatter_requires_anchored_delimiter (by decide)

/-- C8: content that begins (after trimming the start) with the opening
delimiter line but has no later occurrence of the closing pattern `\n---`
yields no metadata block and the trimmed content as body — a permissive
fallback, not an error. -/
theorem split_frontmatter_unterminated_is_none {content : List Char}
    (h1 : startsWithSeq dddNl (trimStartSeq content) = true)
    (h2 : ∀ a b : List Char, (trimStartSeq content).drop 4 ≠ a ++ nlDdd ++ b) :
    split_frontmatter content = none ∧ fmSplit content = (none, trimSeq content) := by
  have hsp : splitOnce dddNl (trimStartSeq content)
      = some ([], (trimStartSeq content).drop 4) := by
    have h4 : dddNl.length = 4 := by decide
    have hx := splitOnce_of_startsWith dddNl (trimStartSeq content) (by decide) h1
    rwa [h4] at hx
  have hnone : split_frontmatter content = none := by
    unfold split_frontmatter
    rw [hsp]
    cases hcl : splitOnce nlDdd ((trimStartSeq content).drop 4) with
    | none => simp [hcl]
    | some pr =>
      obtain ⟨p, r⟩ := pr
      exact absurd (splitOnce_eq_some _ _ _ _ hcl) (h2 p r)
  exact ⟨hnone, by rw [fmSplit, hnone]⟩

/-- Witness for C8 at the unterminated content from the crate's tests. -/
theorem split_frontmatter_unterminated_is_none_witness :
    split_frontmatter (("---\nnot a frontmatter").toList) = none ∧
      fmSplit (("---\nnot a frontmatter").toList) =
        (none, trimSeq (("---\nnot a frontmatter").toList)) :=
  split_frontmatter_unterminated_is_none (by decide)
    (splitOnce_none_no_occ (by decide) (by decide))

/-- C10 counterexample: on an anchored frontmatter block the two splitters
disagree — the splitn-based one keeps the newlines around the matter text. -/
theorem libSplit_ne_fmSplit_on_frontmatter :
    libSplit (("---\ntitle: x\n---").toList) ≠ fmSplit (("---\ntitle: x\n---").toList) := by
  decide

/-- C10 amended: the two splitting implementations agree — no metadata block
and body equal to the trimmed content — on every input whose trimmed content
does not start with `---`; on delimiter-anchored inputs they diverge. -/
theorem split_variants_agree_off_delimiter {content : List Char}
    (h : startsWithSeq dddChars (trimStartSeq content) = false) :
    libSplit content = (none, trimSeq content) ∧
      fmSplit content = (none, trimSeq content) := by
  have hts : startsWithSeq dddChars (trimSeq content) = false := by
    cases hx : startsWithSeq dddChars (trimSeq content) with
    | false => rfl
    | true =>
      have hy := startsWithSeq_trimSeq hx
      rw [hy] at h
      exact Bool.noConfusion h
  have hlib : libSplit content = (none, trimSeq content) := by
    unfold libSplit
    cases hsp : splitOnce dddChars (trimSeq content) with
    | none => rfl
    | some pr =>
      obtain ⟨pre, r1⟩ := pr
      have hne : pre ≠ [] := splitOnce_pre_ne_nil hsp hts
      simp [hne]
  have hnl : startsWithSeq dddNl (trimStartSeq content) = false := by
    cases hx : startsWithSeq dddNl (trimStartSeq content) with
    | false => rfl
    | true =>
      have hc : startsWithSeq dddChars (trimStartSeq content) = true := by
        have hd : dddNl = dddChars ++ (("\n").toList) := by decide
        exact startsWithSeq_of_append_left (hd ▸ hx)
      rw [hc] at h
      exact Bool.noConfusion h
  have hfm := split_frontmatter_eq_none_of_not_anchored hnl
  exact ⟨hlib, by rw [fmSplit, hfm]⟩

/-- Witness for the amended C10 at a delimiter-free content. -/
theorem split_variants_agree_off_delimiter_witness :
    libSplit (("hello\n---\nworld").toList) =
        (none, trimSeq (("hello\n---\nworld").toList)) ∧
      fmSplit (("hello\n---\nworld").toList) =
        (none, trimSeq (("hello\n---\nworld").toList)) :=
  split_variants_agree_off_delimiter (by decide)

/-- C3: whenever resolution succeeds and the deserialized frontmatter title is
absent (or there is no frontmatter block at all), the page title is the first
line of the page body with leading `#` stripped and whitespace trimmed; the
frontmatter-less content `"## foo\nbar"` resolves with title `"foo"`, and the
empty content resolves — with no error — to the empty-string title. -/
theorem from_content_title_fallback :
    (∀ (ε : Type) (deser : List Char → Except ε Frontmatter) (content : List Char)
        (page : FlatPage), from_content deser content = .ok page →
        titleAbsent deser content → page.title = title_from_markdown page.body)
  ∧ (∀ (ε : Type) (deser : List Char → Except ε Frontmatter),
      from_content deser (("## foo\nbar").toList) =
        .ok ⟨("foo").toList, none, ("## foo\nbar").toList⟩)
  ∧ (∀ (ε : Type) (deser : List Char → Except ε Frontmatter),
      from_content deser [] = .ok ⟨[], none, []⟩) := by
  refine ⟨?_, fun ε deser => rfl, fun ε deser => rfl⟩
  intro ε deser content page hres habs
  rcases habs with ⟨b, hb⟩ | ⟨fm, b, hb, ht⟩
  · have hfc : from_content deser content =
        .ok ⟨title_from_markdown content, none, content⟩ := by
      rw [from_content, hb]
      rfl
    rw [hfc] at hres
    injection hres with h'
    rw [← h']
  · have hfc : from_content deser content =
        .ok ⟨fm.title.getD (title_from_markdown b), fm.description, b⟩ := by
      rw [from_content, hb]
      rfl
    rw [hfc] at hres
    injection hres with h'
    rw [← h']
    simp [ht]

/-- Witness for C3: a present frontmatter with an absent title falls back to
the body's first line. -/
theorem from_content_title_fallback_witness :
    (⟨("body").toList, none, ("body").toList⟩ : FlatPage).title =
      title_from_markdown (⟨("body").toList, none, ("body").toList⟩ : FlatPage).body :=
  from_content_title_fallback.1 (List Char) (fun _ => .ok ⟨none, none⟩)
    (("---\na: b\n---\nbody").toList) ⟨("body").toList, none, ("body").toList⟩ rfl
    (Or.inr ⟨⟨none, none⟩, ("body").toList, rfl, rfl⟩)

/-- C2: `by_path` returns `Ok(None)` whenever the read fails, fails exactly
when the read succeeded but frontmatter resolution failed, and every error it
returns carries the offending path. -/
theorem by_path_absence_not_error :
    (∀ (ε : Type) (deser : List Char → Except ε Frontmatter) (path : List Char),
        by_path deser none path = .ok none)
  ∧ (∀ (ε : Type) (deser : List Char → Except ε Frontmatter) (content path : List Char)
        (e : ε), from_content deser content = .error e →
        by_path deser (some content) path = .error (.Frontmatter e path))
  ∧ (∀ (ε : Type) (deser : List Char → Except ε Frontmatter)
        (readResult : Option (List Char)) (path : List Char) (err : Error ε),
        by_path deser readResult path = .error err →
        ∃ content e, readResult = some content ∧ from_content deser content = .error e ∧
          err = Error.Frontmatter e path) := by
  refine ⟨fun ε deser path => rfl, ?_, ?_⟩
  · intro ε deser content path e h
    simp [by_path, h]
  · intro ε deser readResult path err h
    cases readResult with
    | none => simp [by_path] at h
    | some content =>
      cases hfc : from_content deser content with
      | ok page => simp [by_path, hfc] at h
      | error e =>
        simp [by_path, hfc] at h
        exact ⟨content, e, rfl, hfc, h.symm⟩

/-- Witness for C2: a failing deserialization surfaces as a frontmatter error
carrying the path. -/
theorem by_path_absence_not_error_witness :
    by_path (ε := List Char) (fun _ => .error (("bad").toList))
        (some (("---\nx\n---").toList)) (("p.md").toList) =
      .error (.Frontmatter (("bad").toList) (("p.md").toList)) :=
  by_path_absence_not_error.2.1 (List Char) (fun _ => .error (("bad").toList))
    (("---\nx\n---").toList) (("p.md").toList) (("bad").toList) rfl

/-- C4: the empty URL and every URL with a character outside the whitelist map
to no filename, and `by_url` returns `Ok(None)` on them for every filesystem —
no path is ever consulted. -/
theorem by_url_rejects_non_whitelisted :
    ∀ url : List Char, (url = [] ∨ ∃ c ∈ url, allowedUrlChar c = false) →
      url_to_filename url = none ∧
        ∀ (ε : Type) (deser : List Char → Except ε Frontmatter)
          (fs : List Char → Option (List Char)) (root : List Char),
          by_url deser fs root url = .ok none := by
  intro url h
  have hn : url_to_filename url = none := by
    by_cases he : url = []
    · simp [url_to_filename, he]
    · rcases h with rfl | ⟨c, hc, hbad⟩
      · exact absurd rfl he
      · have hall : ¬ (url.all allowedUrlChar = true) := by
          intro hA
          have hx := List.all_eq_true.mp hA c hc
          rw [hbad] at hx
          exact Bool.noConfusion hx
        simp [url_to_filename, he, hall]
  exact ⟨hn, fun ε deser fs root => by simp [by_url, hn]⟩

/-- Witness for C4 at the URL `a#b`. -/
theorem by_url_rejects_non_whitelisted_witness :
    url_to_filename (("a#b").toList) = none ∧
      ∀ (ε : Type) (deser : List Char → Except ε Frontmatter)
        (fs : List Char → Option (List Char)) (root : List Char),
        by_url deser fs root (("a#b").toList) = .ok none :=
  by_url_rejects_non_whitelisted _ (Or.inr ⟨'#', by decide, by decide⟩)

/-- C5: every whitelist-accepted URL maps to the filename obtained by
replacing each `/` with `^` and appending `.md`; `/foo-bar/baz/` maps to
`^foo-bar^baz^.md` (the trailing slash becomes a trailing `^`) and `/` maps to
`^.md`. -/
theorem url_to_filename_replaces_slashes :
    (∀ url : List Char, url ≠ [] → url.all allowedUrlChar = true →
        url_to_filename url =
          some (url.map (fun c => if c = '/' then '^' else c) ++ dotMd))
  ∧ url_to_filename (("/foo-bar/baz/").toList) = some (("^foo-bar^baz^.md").toList)
  ∧ url_to_filename (("/").toList) = some (("^.md").toList) := by
  refine ⟨?_, by decide, by decide⟩
  intro url h1 h2
  simp [url_to_filename, h1, h2]

/-- Witness for C5 at the URL `a/b_c-1`. -/
theorem url_to_filename_replaces_slashes_witness :
    url_to_filename (("a/b_c-1").toList) =
      some ((("a/b_c-1").toList).map (fun c => if c = '/' then '^' else c) ++ dotMd) :=
  url_to_filename_replaces_slashes.1 (("a/b_c-1").toList) (by decide) (by decide)

/-- C9: the URL transform is not injective and the collision is not rejected:
`a/b` and `a^b` differ — at position 1 one has `/`, the other `^` — yet they
map to the same stem, and the store's lookups treat them identically. -/
theorem url_transform_collision :
    (("a/b").toList ≠ ("a^b").toList)
  ∧ (("a/b").toList)[1]? = some '/'
  ∧ (("a^b").toList)[1]? = some '^'
  ∧ url_to_stem (("a/b").toList) = url_to_stem (("a^b").toList)
  ∧ (∀ st : FlatPageStore, meta_by_url st (("a/b").toList) = meta_by_url st (("a^b").toList))
  ∧ (∀ (ε : Type) (deser : List Char → Except ε Frontmatter)
      (fs : List Char → Option (List Char)) (st : FlatPageStore),
      page_by_url deser fs st (("a/b").toList) = page_by_url deser fs st (("a^b").toList)) := by
  have hst : url_to_stem (("a/b").toList) = url_to_stem (("a^b").toList) := by decide
  refine ⟨by decide, by decide, by decide, hst, ?_, ?_⟩
  · intro st
    rw [meta_by_url, meta_by_url, hst]
  · intro ε deser fs st
    rw [page_by_url, page_by_url, hst]

/-- C7: `page_by_stem` returns `Ok(None)` for a stem absent from the index —
for every filesystem, so no path is consulted — and for a present stem it is
exactly `by_path` on `root` joined with `stem`.md, independent of the cached
metadata values. -/
theorem page_by_stem_absent_ok_none_present_by_path :
    (∀ (ε : Type) (deser : List Char → Except ε Frontmatter)
        (fs : List Char → Option (List Char)) (st : FlatPageStore) (stem : List Char),
        lookupStem stem st.pages = none →
        page_by_stem deser fs st stem = .ok none)
  ∧ (∀ (ε : Type) (deser : List Char → Except ε Frontmatter)
        (fs : List Char → Option (List Char)) (st : FlatPageStore) (stem : List Char),
        (lookupStem stem st.pages).isSome = true →
        page_by_stem deser fs st stem =
          by_path deser (fs (pathJoin st.root (stem ++ dotMd)))
            (pathJoin st.root (stem ++ dotMd))) := by
  constructor
  · intro ε deser fs st stem h
    simp [page_by_stem, h]
  · intro ε deser fs st stem h
    simp [page_by_stem, h]

/-- Witness for C7: an empty index answers `Ok(None)`. -/
theorem page_by_stem_absent_witness :
    page_by_stem (ε := List Char) (fun _ => .ok ⟨none, none⟩) (fun _ => none)
        ⟨("r").toList, []⟩ (("home").toList) = .ok none :=
  page_by_stem_absent_ok_none_present_by_path.1 (List Char) (fun _ => .ok ⟨none, none⟩)
    (fun _ => none) ⟨("r").toList, []⟩ (("home").toList) rfl

/-! Step lemmas for the `read_dir` loop. -/

theorem read_dir_go_error_cons {ε : Type} (deser : List Char → Except ε Frontmatter)
    (ioe : List Char) (rest : Listing) (acc : List (List Char × FlatPageMeta)) :
    read_dir_go deser (Except.error ioe :: rest) acc = .error (.DirEntry ioe) := by
  rw [read_dir_go]

theorem read_dir_go_cons_skip {ε : Type} (deser : List Char → Except ε Frontmatter)
    (ent : DirEntry) (rest : Listing) (acc : List (List Char × FlatPageMeta))
    (hq : ¬ (ent.isFile = true ∧ ent.ext = some mdExtChars)) :
    read_dir_go deser (Except.ok ent :: rest) acc = read_dir_go deser rest acc := by
  rw [read_dir_go, if_neg hq]

theorem read_dir_go_cons_stem_none {ε : Type} (deser : List Char → Except ε Frontmatter)
    (ent : DirEntry) (rest : Listing) (acc : List (List Char × FlatPageMeta))
    (hq : ent.isFile = true ∧ ent.ext = some mdExtChars) (hst : ent.stem = none) :
    read_dir_go deser (Except.ok ent :: rest) acc = read_dir_go deser rest acc := by
  rw [read_dir_go, if_pos hq, hst]

theorem read_dir_go_cons_skip_unreadable {ε : Type} (deser : List Char → Except ε Frontmatter)
    (ent : DirEntry) (rest : Listing) (acc : List (List Char × FlatPageMeta)) (s : List Char)
    (hq : ent.isFile = true ∧ ent.ext = some mdExtChars) (hst : ent.stem = some s)
    (hbp : by_path deser ent.content ent.path = .ok none) :
    read_dir_go deser (Except.ok ent :: rest) acc = read_dir_go deser rest acc := by
  rw [read_dir_go, if_pos hq, hst, hbp]

theorem read_dir_go_cons_insert {ε : Type} (deser : List Char → Except ε Frontmatter)
    (ent : DirEntry) (rest : Listing) (acc : List (List Char × FlatPageMeta)) (s : List Char)
    (page : FlatPage)
    (hq : ent.isFile = true ∧ ent.ext = some mdExtChars) (hst : ent.stem = some s)
    (hbp : by_path deser ent.content ent.path = .ok (some page)) :
    read_dir_go deser (Except.ok ent :: rest) acc =
      read_dir_go deser rest (insertStem s page.toMeta acc) := by
  rw [read_dir_go, if_pos hq, hst, hbp]

theorem read_dir_go_cons_error {ε : Type} (deser : List Char → Except ε Frontmatter)
    (ent : DirEntry) (rest : Listing) (acc : List (List Char × FlatPageMeta)) (s : List Char)
    (err : Error ε)
    (hq : ent.isFile = true ∧ ent.ext = some mdExtChars) (hst : ent.stem = some s)
    (hbp : by_path deser ent.content ent.path = .error err) :
    read_dir_go deser (Except.ok ent :: rest) acc = .error err := by
  rw [read_dir_go, if_pos hq, hst, hbp]

theorem exists_ok_mem_cons_iff {ent : DirEntry} {rest : Listing} {P : DirEntry → Prop}
    (hno : ¬ P ent) :
    (∃ e, Except.ok e ∈ (Except.ok ent :: rest : Listing) ∧ P e) ↔
      ∃ e, Except.ok e ∈ rest ∧ P e := by
  constructor
  · rintro ⟨e, he, hp⟩
    rcases List.mem_cons.mp he with heq | hmem
    · injection heq with h'
      exact absurd (h' ▸ hp) hno
    · exact ⟨e, hmem, hp⟩
  · rintro ⟨e, he, hp⟩
    exact ⟨e, List.mem_cons_of_mem _ he, hp⟩

theorem read_dir_go_ok_lookup {ε : Type} (deser : List Char → Except ε Frontmatter) :
    ∀ (entries : Listing) (acc pages : List (List Char × FlatPageMeta)),
      read_dir_go deser entries acc = .ok pages →
      ∀ stem, (lookupStem stem pages).isSome = true ↔
        ((lookupStem stem acc).isSome = true ∨
          ∃ ent, Except.ok ent ∈ entries ∧ indexable deser stem ent) := by
  intro entries
  induction entries with
  | nil =>
    intro acc pages h stem
    rw [read_dir_go] at h
    injection h with h'
    subst h'
    simp
  | cons e rest ih =>
    intro acc pages h stem
    cases e with
    | error ioe =>
      rw [read_dir_go_error_cons] at h
      exact absurd h (by simp)
    | ok ent =>
      by_cases hq : ent.isFile = true ∧ ent.ext = some mdExtChars
      · cases hst : ent.stem with
        | none =>
          rw [read_dir_go_cons_stem_none deser ent rest acc hq hst] at h
          rw [ih acc pages h stem]
          have hno : ¬ indexable deser stem ent := by
            rintro ⟨_, _, hs, _⟩
            rw [hst] at hs
            exact Option.noConfusion hs
          rw [exists_ok_mem_cons_iff hno]
        | some s =>
          cases hbp : by_path deser ent.content ent.path with
          | error err =>
            rw [read_dir_go_cons_error deser ent rest acc s err hq hst hbp] at h
            exact absurd h (by simp)
          | ok op =>
            cases op with
            | none =>
              rw [read_dir_go_cons_skip_unreadable deser ent rest acc s hq hst hbp] at h
              rw [ih acc pages h stem]
              have hno : ¬ indexable deser stem ent := by
                rintro ⟨_, _, _, page, hp⟩
                rw [hbp] at hp
                injection hp with h''
                exact Option.noConfusion h''
              rw [exists_ok_mem_cons_iff hno]
            | some page =>
              rw [read_dir_go_cons_insert deser ent rest acc s page hq hst hbp] at h
              by_cases hss : s = stem
              · subst hss
                have hL : (lookupStem s pages).isSome = true :=
                  (ih _ pages h s).mpr (Or.inl (by simp [insertStem, lookupStem]))
                have hR : ∃ e, Except.ok e ∈ (Except.ok ent :: rest : Listing) ∧
                    indexable deser s e :=
                  ⟨ent, List.mem_cons_self _ _, hq.1, hq.2, hst, page, hbp⟩
                exact iff_of_true hL (Or.inr hR)
              · rw [ih _ pages h stem]
                have hacc : lookupStem stem (insertStem s page.toMeta acc) =
                    lookupStem stem acc := by
                  simp [insertStem, lookupStem, hss]
                rw [hacc]
                have hno : ¬ indexable deser stem ent := by
                  rintro ⟨_, _, hs, _⟩
                  rw [hst] at hs
                  injection hs with h''
                  exact hss h''
                rw [exists_ok_mem_cons_iff hno]
      · rw [read_dir_go_cons_skip deser ent rest acc hq] at h
        rw [ih acc pages h stem]
        have hno : ¬ indexable deser stem ent := by
          rintro ⟨h1, h2, _⟩
          exact hq ⟨h1, h2⟩
        rw [exists_ok_mem_cons_iff hno]

theorem read_dir_go_cons_ok_not_fails {ε : Type} (deser : List Char → Except ε Frontmatter)
    (ent : DirEntry) (rest : Listing) (acc pages : List (List Char × FlatPageMeta))
    (h : read_dir_go deser (Except.ok ent :: rest) acc = .ok pages) :
    ¬ entryFails deser ent ∧ ∃ acc', read_dir_go deser rest acc' = .ok pages := by
  by_cases hq : ent.isFile = true ∧ ent.ext = some mdExtChars
  · cases hst : ent.stem with
    | none =>
      rw [read_dir_go_cons_stem_none deser ent rest acc hq hst] at h
      refine ⟨?_, acc, h⟩
      rintro ⟨_, _, ⟨s, hs⟩, _⟩
      rw [hst] at hs
      exact Option.noConfusion hs
    | some s =>
      cases hbp : by_path deser ent.content ent.path with
      | error err =>
        rw [read_dir_go_cons_error deser ent rest acc s err hq hst hbp] at h
        exact absurd h (by simp)
      | ok op =>
        cases op with
        | none =>
          rw [read_dir_go_cons_skip_unreadable deser ent rest acc s hq hst hbp] at h
          refine ⟨?_, acc, h⟩
          rintro ⟨_, _, _, err, herr⟩
          rw [hbp] at herr
          exact Except.noConfusion herr
        | some page =>
          rw [read_dir_go_cons_insert deser ent rest acc s page hq hst hbp] at h
          refine ⟨?_, _, h⟩
          rintro ⟨_, _, _, err, herr⟩
          rw [hbp] at herr
          exact Except.noConfusion herr
  · rw [read_dir_go_cons_skip deser ent rest acc hq] at h
    refine ⟨?_, acc, h⟩
    rintro ⟨h1, h2, _, _⟩
    exact hq ⟨h1, h2⟩

theorem read_dir_go_ok_clean {ε : Type} (deser : List Char → Except ε Frontmatter) :
    ∀ (entries : Listing) (acc pages : List (List Char × FlatPageMeta)),
      read_dir_go deser entries acc = .ok pages →
      (∀ ioe, Except.error ioe ∉ entries) ∧
        ∀ ent, Except.ok ent ∈ entries → ¬ entryFails deser ent := by
  intro entries
  induction entries with
  | nil =>
    intro acc pages _h
    exact ⟨fun ioe => List.not_mem_nil _, fun ent hent => absurd hent (List.not_mem_nil _)⟩
  | cons e rest ih =>
    intro acc pages h
    cases e with
    | error ioe =>
      rw [read_dir_go_error_cons] at h
      exact absurd h (by simp)
    | ok ent =>
      obtain ⟨hnf, acc', h'⟩ := read_dir_go_cons_ok_not_fails deser ent rest acc pages h
      obtain ⟨hioe, hok⟩ := ih acc' pages h'
      refine ⟨?_, ?_⟩
      · intro ioe hmem
        rcases List.mem_cons.mp hmem with heq | hmem'
        · exact Except.noConfusion heq
        · exact hioe ioe hmem'
      · intro e' hmem hf
        rcases List.mem_cons.mp hmem with heq | hmem'
        · injection heq with h''
          exact hnf (h'' ▸ hf)
        · exact hok e' hmem' hf

theorem read_dir_go_cons_continues {ε : Type} (deser : List Char → Except ε Frontmatter)
    {e : Except (List Char) DirEntry} (hc : entryContinues deser e)
    (rest : Listing) (acc : List (List Char × FlatPageMeta)) :
    ∃ acc', read_dir_go deser (e :: rest) acc = read_dir_go deser rest acc' := by
  obtain ⟨ent, rfl, hnf⟩ := hc
  by_cases hq : ent.isFile = true ∧ ent.ext = some mdExtChars
  · cases hst : ent.stem with
    | none => exact ⟨acc, read_dir_go_cons_stem_none deser ent rest acc hq hst⟩
    | some s =>
      cases hbp : by_path deser ent.content ent.path with
      | error err => exact absurd ⟨hq.1, hq.2, ⟨s, hst⟩, err, hbp⟩ hnf
      | ok op =>
        cases op with
        | none =>
          exact ⟨acc, read_dir_go_cons_skip_unreadable deser ent rest acc s hq hst hbp⟩
        | some page =>
          exact ⟨insertStem s page.toMeta acc,
            read_dir_go_cons_insert deser ent rest acc s page hq hst hbp⟩
  · exact ⟨acc, read_dir_go_cons_skip deser ent rest acc hq⟩

theorem read_dir_go_append_continues {ε : Type} (deser : List Char → Except ε Frontmatter) :
    ∀ (pre : Listing), (∀ e ∈ pre, entryContinues deser e) →
      ∀ (rest : Listing) (acc : List (List Char × FlatPageMeta)), ∃ acc',
        read_dir_go deser (pre ++ rest) acc = read_dir_go deser rest acc'
  | [], _h, rest, acc => ⟨acc, rfl⟩
  | e :: pre', h, rest, acc => by
    obtain ⟨acc1, h1⟩ :=
      read_dir_go_cons_continues deser (h e (List.mem_cons_self e pre')) (pre' ++ rest) acc
    obtain ⟨acc2, h2⟩ :=
      read_dir_go_append_continues deser pre'
        (fun x hx => h x (List.mem_cons_of_mem _ hx)) rest acc1
    exact ⟨acc2, by rw [List.cons_append, h1, h2]⟩

theorem read_dir_eq_of_go_ok {ε : Type} (deser : List Char → Except ε Frontmatter)
    (root : List Char) (entries : Listing) (pages : List (List Char × FlatPageMeta))
    (hgo : read_dir_go deser entries [] = .ok pages) :
    read_dir deser root (.ok entries) = .ok ⟨root, pages⟩ := by
  rw [read_dir, hgo]

theorem read_dir_eq_of_go_error {ε : Type} (deser : List Char → Except ε Frontmatter)
    (root : List Char) (entries : Listing) (err : Error ε)
    (hgo : read_dir_go deser entries [] = .error err) :
    read_dir deser root (.ok entries) = .error err := by
  rw [read_dir, hgo]

theorem go_ok_of_read_dir_ok {ε : Type} (deser : List Char → Except ε Frontmatter)
    (root : List Char) (entries : Listing) (st : FlatPageStore)
    (h : read_dir deser root (.ok entries) = .ok st) :
    read_dir_go deser entries [] = .ok st.pages := by
  rw [read_dir] at h
  cases hgo : read_dir_go deser entries [] with
  | ok pages =>
    rw [hgo] at h
    injection h with h'
    rw [← h']
  | error e =>
    rw [hgo] at h
    exact absurd h (by simp)

/-- C6: a successful build indexes exactly the regular `md` files with UTF-8
stems whose pages resolve; a successful build had no inspection failure and no
parse failure among its entries (so a frontmatter parse failure on any single
entry precludes success); the first parse failure aborts the build with an
error carrying that entry's path; the first entry-inspection failure aborts
the build with a `DirEntry` error; and when every entry continues — including
unreadable files, which are silently skipped — the build succeeds. -/
theorem read_dir_indexes_md_files :
    (∀ (ε : Type) (deser : List Char → Except ε Frontmatter) (root : List Char)
        (entries : Listing) (st : FlatPageStore),
        read_dir deser root (.ok entries) = .ok st →
        ∀ stem, (lookupStem stem st.pages).isSome = true ↔
          ∃ ent, Except.ok ent ∈ entries ∧ indexable deser stem ent)
  ∧ (∀ (ε : Type) (deser : List Char → Except ε Frontmatter) (root : List Char)
        (entries : Listing) (st : FlatPageStore),
        read_dir deser root (.ok entries) = .ok st →
        (∀ ioe, Except.error ioe ∉ entries) ∧
          ∀ ent, Except.ok ent ∈ entries → ¬ entryFails deser ent)
  ∧ (∀ (ε : Type) (deser : List Char → Except ε Frontmatter) (root : List Char)
        (pre rest : Listing) (bad : DirEntry) (c : List Char) (ye : ε),
        (∀ e ∈ pre, entryContinues deser e) →
        bad.isFile = true → bad.ext = some mdExtChars → (∃ s, bad.stem = some s) →
        bad.content = some c → from_content deser c = .error ye →
        read_dir deser root (.ok (pre ++ Except.ok bad :: rest)) =
          .error (.Frontmatter ye bad.path))
  ∧ (∀ (ε : Type) (deser : List Char → Except ε Frontmatter) (root : List Char)
        (pre rest : Listing) (ioe : List Char),
        (∀ e ∈ pre, entryContinues deser e) →
        read_dir deser root (.ok (pre ++ Except.error ioe :: rest)) =
          .error (.DirEntry ioe))
  ∧ (∀ (ε : Type) (deser : List Char → Except ε Frontmatter) (root : List Char)
        (entries : Listing),
        (∀ e ∈ entries, entryContinues deser e) →
        ∃ st, read_dir deser root (.ok entries) = .ok st) := by
  refine ⟨?_, ?_, ?_, ?_, ?_⟩
  · intro ε deser root entries st h stem
    have hgo := go_ok_of_read_dir_ok deser root entries st h
    rw [read_dir_go_ok_lookup deser entries [] st.pages hgo stem]
    simp [lookupStem]
  · intro ε deser root entries st h
    exact read_dir_go_ok_clean deser entries [] st.pages
      (go_ok_of_read_dir_ok deser root entries st h)
  · intro ε deser root pre rest bad c ye hcont hf he hs hc hfc
    obtain ⟨s, hs'⟩ := hs
    obtain ⟨acc', hacc⟩ :=
      read_dir_go_append_continues deser pre hcont (Except.ok bad :: rest) []
    have hbp : by_path deser bad.content bad.path = .error (.Frontmatter ye bad.path) := by
      rw [hc, by_path, hfc]
    have hgo : read_dir_go deser (pre ++ Except.ok bad :: rest) [] =
        .error (.Frontmatter ye bad.path) := by
      rw [hacc, read_dir_go_cons_error deser bad rest acc' s _ ⟨hf, he⟩ hs' hbp]
    exact read_dir_eq_of_go_error deser root _ _ hgo
  · intro ε deser root pre rest ioe hcont
    obtain ⟨acc', hacc⟩ :=
      read_dir_go_append_continues deser pre hcont (Except.error ioe :: rest) []
    have hgo : read_dir_go deser (pre ++ Except.error ioe :: rest) [] =
        .error (.DirEntry ioe) := by
      rw [hacc, read_dir_go_error_cons]
    exact read_dir_eq_of_go_error deser root _ _ hgo
  · intro ε deser root entries hcont
    obtain ⟨acc', hacc⟩ := read_dir_go_append_continues deser entries hcont [] []
    rw [List.append_nil] at hacc
    have hgo : read_dir_go deser entries [] = .ok acc' := hacc.trans rfl
    exact ⟨⟨root, acc'⟩, read_dir_eq_of_go_ok deser root entries acc' hgo⟩

/-- Witness for C6: a failing directory entry aborts the build. -/
theorem read_dir_indexes_md_files_witness :
    read_dir (ε := List Char) (fun _ => .ok ⟨none, none⟩) (("r").toList)
        (.ok [Except.error (("boom").toList)]) = .error (.DirEntry (("boom").toList)) :=
  read_dir_indexes_md_files.2.2.2.1 (List Char) (fun _ => .ok ⟨none, none⟩)
    (("r").toList) [] [] (("boom").toList) (by simp)

end Flatpage
